import Mathlib

/-!
# Verification of the pcap-editor packet-stream transform engine

A shallow embedding of the five processing modules of the repository
(`pcap_time_reducer`, `pcap_time_dilator`, `pcap_dilute_timed`,
`pcap_augment_timed`, `pcap_comparative_analyzer`, `pcap_shuffle_tester`)
together with proofs about the claims of the specification.

Modelling conventions:
* A pcap packet record is a `Packet`: the four `u32` header fields and the
  payload bytes.  The codec collaborator (the `pcap_file` crate) only ever
  produces field values below `2^32`; fields are carried as `Nat` and the
  `u32` range is imposed through the `WF32` predicate where arithmetic needs
  it.
* File I/O is abstracted: an operation takes the list of packets the reader
  would yield and returns a `RunResult` recording whether the output file
  was created (the `File::create` / `PcapWriter::with_header` step), the
  packets written to it, and the error (if any) the function bailed with.
* Rust `i64` arithmetic is modelled on `Int`: `/` and `%` on `i64` truncate
  towards zero, hence `Int.tdiv` / `Int.tmod`; `x as u32` keeps the low 32
  bits, hence reduction mod `2^32`; `u32` addition is modelled wrapping.
* The `f64` computation `(t as f64 / factor).round() as i64` of the
  compressor (and the `*` analogue of the dilator) is modelled exactly over
  `ℚ`: `f64::round` rounds half away from zero (`rustRound`) and the
  `as i64` conversion saturates (`i64sat`).  For the concrete inputs used
  in counterexamples and witnesses below every intermediate `f64` value is
  a small dyadic rational, where `f64` arithmetic is exact, so the rational
  model and the floating-point computation agree there.
* The SeaHash fingerprint of the comparator is modelled collision-freely by
  the exact byte buffer that the code feeds to the hasher
  (`read_and_hash_packets`); the diff algorithm only ever compares
  fingerprints for equality.
-/

/-- One pcap record: `(ts_sec, ts_usec, incl_len, orig_len)` header fields
(`u32` in the Rust code) plus the payload bytes. -/
structure Packet where
  ts_sec : Nat
  ts_usec : Nat
  incl_len : Nat
  orig_len : Nat
  data : List Nat
deriving DecidableEq

instance : Inhabited Packet := ⟨⟨0, 0, 0, 0, []⟩⟩

/-- The record's instant on the microsecond axis. -/
def instantUs (p : Packet) : Nat := p.ts_sec * 1000000 + p.ts_usec

/-- The `u32` range guarantee the pcap codec gives for header fields. -/
def WF32 (p : Packet) : Prop := p.ts_sec < 4294967296 ∧ p.ts_usec < 1000000

instance (p : Packet) : Decidable (WF32 p) :=
  inferInstanceAs (Decidable (_ ∧ _))

/-- Every record of the stream is within the codec's field ranges. -/
def WFStream (l : List Packet) : Prop := ∀ p ∈ l, WF32 p

instance (l : List Packet) : Decidable (WFStream l) :=
  inferInstanceAs (Decidable (∀ p ∈ l, WF32 p))

/-- Non-decreasing timestamps, the well-formedness invariant of a stream. -/
def SortedStream (l : List Packet) : Prop :=
  List.Chain' (fun a b => instantUs a ≤ instantUs b) l

instance instDecSortedStream : (l : List Packet) → Decidable (SortedStream l)
  | [] => isTrue trivial
  | [_] => isTrue (List.chain'_singleton _)
  | a :: b :: r =>
      if h : instantUs a ≤ instantUs b then
        match instDecSortedStream (b :: r) with
        | isTrue ht => isTrue (List.chain'_cons.mpr ⟨h, ht⟩)
        | isFalse hf => isFalse (fun hc => hf (List.chain'_cons.mp hc).2)
      else isFalse (fun hc => h (List.chain'_cons.mp hc).1)

/-- The error kinds raised by the transform operations. -/
inductive PcapError where
  | invalidParameter
  | emptyStream
  | insufficientPackets
  | indexOutOfBounds
deriving DecidableEq

/-- Trace of one operation run: whether the output file was created (the
`File::create` plus pcap-header write), the packet records written into it,
and the error the run ended with (`none` = success).  A `some
.indexOutOfBounds` error models a Rust index-out-of-bounds panic. -/
structure RunResult where
  outputCreated : Bool
  written : List Packet
  error : Option PcapError
deriving DecidableEq

deriving instance DecidableEq for Except

/-- Rust `x as u32` on an `i64` value: the low 32 bits. -/
def u32ofInt (x : Int) : Nat := (x % 4294967296).toNat

/-- Rust `f64::round`: round half away from zero. -/
def rustRound (q : ℚ) : Int := if q < 0 then -⌊-q + 1 / 2⌋ else ⌊q + 1 / 2⌋

/-- Rust `f64 as i64`: saturating conversion. -/
def i64sat (x : Int) : Int :=
  max (-9223372036854775808) (min 9223372036854775807 x)

/-- `total_micros` of the compressor/dilator: timestamp difference to the
base (first) record in microseconds, computed in `i64`. -/
def totalMicros (base p : Packet) : Int :=
  ((p.ts_sec : Int) - (base.ts_sec : Int)) * 1000000 +
    ((p.ts_usec : Int) - (base.ts_usec : Int))

/-- The timestamp rewrite shared by compressor and dilator: given the base
record and the scaled offset `scaled` (the rounded `i64` microsecond
offset), recompute the absolute timestamp exactly as the Rust code does
(`i64` division/remainder truncate towards zero, `as u32` keeps low bits,
the final `u32` addition wraps). -/
def retimePacket (base : Packet) (scaled : Int) (p : Packet) : Packet :=
  let new_sec : Nat := u32ofInt ((base.ts_sec : Int) + scaled.tdiv 1000000)
  let new_usec : Nat := u32ofInt ((base.ts_usec : Int) + scaled.tmod 1000000)
  let adjusted_sec : Nat := (new_sec + new_usec / 1000000) % 4294967296
  let adjusted_usec : Nat := new_usec % 1000000
  { p with ts_sec := adjusted_sec, ts_usec := adjusted_usec }

/-- `(total_micros as f64 / compression_factor).round() as i64`. -/
def compressScaled (factor : ℚ) (t : Int) : Int :=
  i64sat (rustRound ((t : ℚ) / factor))

/-- `(total_micros as f64 * time_factor).round() as i64`. -/
def stretchScaled (factor : ℚ) (t : Int) : Int :=
  i64sat (rustRound ((t : ℚ) * factor))

/-- `pcap_time_reducer::pcap_time_compressor`: validates
`compression_factor > 1.0`, creates the output file, writes the first
packet unchanged and every further packet with the compressed offset. -/
def pcap_time_compressor (input : List Packet) (compression_factor : ℚ) :
    RunResult :=
  if compression_factor ≤ 1 then ⟨false, [], some .invalidParameter⟩ else
  match input with
  | [] => ⟨true, [], some .emptyStream⟩
  | first :: rest =>
      ⟨true, first :: rest.map (fun p =>
        retimePacket first
          (compressScaled compression_factor (totalMicros first p)) p), none⟩

/-- `pcap_time_dilator::pcap_time_dilator`: validates `time_factor > 0.0`,
creates the output file, writes the first packet unchanged and every
further packet with the stretched offset. -/
def pcap_time_dilator (input : List Packet) (time_factor : ℚ) : RunResult :=
  if time_factor ≤ 0 then ⟨false, [], some .invalidParameter⟩ else
  match input with
  | [] => ⟨true, [], some .emptyStream⟩
  | first :: rest =>
      ⟨true, first :: rest.map (fun p =>
        retimePacket first
          (stretchScaled time_factor (totalMicros first p)) p), none⟩

/-- One output record of the augment loop: the cyclically reused source
record with the grid timestamp `first_ns + interval * i` converted to
seconds and whole microseconds (`as u32` keeps the low 32 bits; the
nanosecond residual is below `2^32`, so its cast is lossless). -/
def augmentBuild (input : List Packet) (first_ns interval i : Nat) :
    Packet :=
  let new_ns := first_ns + interval * i
  let new_sec := (new_ns / 1000000000) % 4294967296
  let new_usec := (new_ns % 1000000000) / 1000
  let base := input.getD (i % input.length) default
  { base with ts_sec := new_sec, ts_usec := new_usec }

/-- `pcap_augment_timed::pcap_augment_timed`: validates `multiplier > 1`,
creates the output file, reads all packets, and emits `n * multiplier`
clones on the evenly spaced nanosecond grid.  `u128` arithmetic cannot
overflow for codec-range fields, so plain `Nat` arithmetic is used; the
`u128` subtraction producing the duration is modelled truncated (for the
claims' non-decreasing inputs it never underflows); the `as u32` casts of
the second/residual conversion keep the low 32 bits. -/
def pcap_augment_timed (input : List Packet) (multiplier : Nat) : RunResult :=
  if multiplier < 2 then ⟨false, [], some .invalidParameter⟩ else
  match input with
  | [] => ⟨true, [], some .emptyStream⟩
  | first :: rest =>
      let lastP := (first :: rest).getLast (by simp)
      let first_ns := first.ts_sec * 1000000000 + first.ts_usec * 1000
      let last_ns := lastP.ts_sec * 1000000000 + lastP.ts_usec * 1000
      let total_duration_ns := last_ns - first_ns
      let target := (first :: rest).length * multiplier
      let interval := if target > 1 then total_duration_ns / (target - 1)
        else 0
      ⟨true, (List.range target).map
        (augmentBuild (first :: rest) first_ns interval), none⟩

/-- The inner scan of `pcap_dilute_timed`: starting from index `j` (the
remaining packets `pkts[j..]` are passed as the list argument) with the
current best candidate `best` at absolute distance `bd` (initially
`i64::MAX`), walk forward keeping the first strictly closer packet and
stopping as soon as the distance strictly grows.  Returns the chosen index
and its distance. -/
def scanBest (tsec tusec : Nat) : List Packet → Nat → Nat → Int → Nat × Int
  | [], _, best, bd => (best, bd)
  | p :: rem, j, best, bd =>
      let d : Int := ((p.ts_sec : Int) - (tsec : Int)) * 1000000 +
        ((p.ts_usec : Int) - (tusec : Int))
      if |d| < bd then scanBest tsec tusec rem (j + 1) j |d|
      else if |d| > bd then (best, bd)
      else scanBest tsec tusec rem (j + 1) best bd

/-- The target-timestamp update of `pcap_dilute_timed` for iterations
`i > 0`: add the ideal interval to the microsecond part and normalize the
carry (only overflow `new_usec >= 1_000_000` is handled by the code; the
final values pass through `as u32` casts). -/
def stepTarget (tsec tusec : Nat) (interval : Int) : Nat × Nat :=
  let new_usec : Int := (tusec : Int) + interval
  let new_sec : Int := (tsec : Int)
  if new_usec ≥ 1000000 then
    (u32ofInt (new_sec + new_usec.tdiv 1000000),
      u32ofInt (new_usec.tmod 1000000))
  else (u32ofInt new_sec, u32ofInt new_usec)

/-- The selection loop of `pcap_dilute_timed`: one round per target point.
`isFirst` distinguishes iteration `i = 0` (which keeps the initial target).
If the chosen index is out of range (`best = pkts.length`, which happens
exactly when the scan cursor has moved past the last record) the Rust code
panics on `original_packets[best_index]`; this is modelled as stopping with
`indexOutOfBounds`, keeping the packets already written. -/
def diluteGo (pkts : List Packet) (interval : Int) (tsec tusec cursor : Nat)
    (isFirst : Bool) : Nat → List Packet × Option PcapError
  | 0 => ([], none)
  | remaining + 1 =>
    let t := if isFirst then (tsec, tusec) else stepTarget tsec tusec interval
    let best :=
      (scanBest t.1 t.2 (pkts.drop cursor) cursor cursor
        9223372036854775807).1
    if h : best < pkts.length then
      let rest := diluteGo pkts interval t.1 t.2 (best + 1) false remaining
      (pkts[best] :: rest.1, rest.2)
    else ([], some .indexOutOfBounds)

/-- `pcap_dilute_timed::pcap_dilute_timed`: validates the factor, creates
the output file, reads all packets, validates emptiness and sufficiency,
then runs the nearest-record selection loop over `n / k` target points. -/
def pcap_dilute_timed_run (input : List Packet) (dilution_factor : Nat) :
    RunResult :=
  if dilution_factor < 2 then ⟨false, [], some .invalidParameter⟩
  else if input.length = 0 then ⟨true, [], some .emptyStream⟩
  else if input.length < dilution_factor then
    ⟨true, [], some .insufficientPackets⟩
  else
    let first := input.headI
    let lastP := input.getLastD default
    let target := input.length / dilution_factor
    let interval := (totalMicros first lastP).tdiv (target : Int)
    let r := diluteGo input interval first.ts_sec first.ts_usec 0 true target
    ⟨true, r.1, r.2⟩

/-- The dilute operation viewed as a fallible function: the packets written
on success, or the error (a panic counts as `indexOutOfBounds`). -/
def pcap_dilute_timed (input : List Packet) (dilution_factor : Nat) :
    Except PcapError (List Packet) :=
  match pcap_dilute_timed_run input dilution_factor with
  | ⟨_, _, some e⟩ => .error e
  | ⟨_, written, none⟩ => .ok written

/-- Big-endian bytes of a `u32` value (`to_be_bytes`). -/
def u32be (x : Nat) : List Nat :=
  [x / 16777216 % 256, x / 65536 % 256, x / 256 % 256, x % 256]

/-- The byte buffer `read_and_hash_packets` feeds to the SeaHash hasher for
one packet: lengths plus payload when `ignore_timestamp` is set, the bare
payload otherwise.  The fingerprint is the hash of exactly these bytes; it
is modelled collision-freely by the buffer itself. -/
def readHashBuffer (ignore_timestamp : Bool) (p : Packet) : List Nat :=
  if ignore_timestamp then
    u32be p.incl_len ++ u32be p.orig_len ++ p.data
  else p.data

/-- The bounded lookahead of the comparator: first index `k` in
`[start, stop)` whose fingerprint equals `target`. -/
def findSync (target : List Nat) (hs : List (List Nat)) (start stop : Nat) :
    Option Nat :=
  (List.range' start (stop - start)).find? fun k => hs.getD k [] == target

/-- The two-cursor diff loop of `compare_ordered_pcaps`, over the two
fingerprint sequences.  Returns the index lists of missing (present only in
stream 1) and extra (present only in stream 2) records, in emission
order. -/
def alignLoop (h1 h2 : List (List Nat)) (i j : Nat) :
    List Nat × List Nat :=
  if hij : i < h1.length ∧ j < h2.length then
    if h1.getD i [] = h2.getD j [] then alignLoop h1 h2 (i + 1) (j + 1)
    else
      let maxi := min (i + 100) h1.length
      let maxj := min (j + 100) h2.length
      match hk : findSync (h1.getD i []) h2 j maxj with
      | some k =>
          let rest := alignLoop h1 h2 (i + 1) (k + 1)
          (rest.1, List.range' j (k - j) ++ rest.2)
      | none =>
          match hk2 : findSync (h2.getD j []) h1 i maxi with
          | some k =>
              let rest := alignLoop h1 h2 (k + 1) (j + 1)
              (List.range' i (k - i) ++ rest.1, rest.2)
          | none =>
              let rest := alignLoop h1 h2 (i + 1) (j + 1)
              (i :: rest.1, j :: rest.2)
  else (List.range' i (h1.length - i), List.range' j (h2.length - j))
termination_by (h1.length - i) + (h2.length - j)
decreasing_by
  · omega
  · have hk' : k ∈ List.range' j (maxj - j) := List.mem_of_find?_eq_some hk
    have : j ≤ k := by
      rcases List.mem_range'.mp hk' with ⟨t, _, rfl⟩; omega
    omega
  · have hk' : k ∈ List.range' i (maxi - i) := List.mem_of_find?_eq_some hk2
    have : i ≤ k := by
      rcases List.mem_range'.mp hk' with ⟨t, _, rfl⟩; omega
    omega
  · omega

/-- `pcap_comparative_analyzer::compare_ordered_pcaps`: fingerprint both
streams, run the diff loop from `(0, 0)`, and report the missing/extra
entries as `(original index, record)` pairs. -/
def compare_ordered_pcaps (ps1 ps2 : List Packet) (ignore_timestamp : Bool) :
    List (Nat × Packet) × List (Nat × Packet) :=
  let h1 := ps1.map (readHashBuffer ignore_timestamp)
  let h2 := ps2.map (readHashBuffer ignore_timestamp)
  let r := alignLoop h1 h2 0 0
  (r.1.map (fun i => (i, ps1.getD i default)),
    r.2.map (fun j => (j, ps2.getD j default)))

/-- The `Duration::new(ts_sec, ts_usec * 1000)` of the disorder detector:
the `u32` multiplication wraps, `Duration::new` normalizes nanosecond
overflow into the seconds. -/
def durOf (p : Packet) : Nat × Nat :=
  let nanos := p.ts_usec * 1000 % 4294967296
  (p.ts_sec + nanos / 1000000000, nanos % 1000000000)

/-- Lexicographic strict order on `Duration` values `(secs, nanos)`. -/
def durLtB (a b : Nat × Nat) : Bool := a.1 < b.1 || (a.1 = b.1 && a.2 < b.2)

/-- The forward pass of `detect_pcap_disorder`: `prev` is the previous
record's duration, `idx` the zero-based position of the head of the
remaining list.  Emits the position of every record whose timestamp is
strictly below its predecessor's (the Rust code logs it with the one-based
running `packet_count`, which is `idx + 1`). -/
def disorderGo (prev : Nat × Nat) : List Packet → Nat → List Nat
  | [], _ => []
  | p :: rest, idx =>
      let d := durOf p
      if durLtB d prev then idx :: disorderGo d rest (idx + 1)
      else disorderGo d rest (idx + 1)

/-- `pcap_shuffle_tester::detect_pcap_disorder`, reduced to its reported
data: the zero-based positions of the ordering violations. -/
def detect_pcap_disorder (input : List Packet) : List Nat :=
  match input with
  | [] => []
  | p :: rest => disorderGo (durOf p) rest 1

/-! ## Concrete streams used in counterexamples and witnesses -/

/-- A minimal record with the given timestamp and empty payload. -/
def pk (s u : Nat) : Packet := ⟨s, u, 0, 0, []⟩

/-- Ten records with strictly increasing timestamps on which the dilute
selection loop runs its cursor past the end of the stream. -/
def diluteOobSorted : List Packet :=
  [pk 0 0, pk 0 10, pk 0 20, pk 0 30, pk 0 40, pk 0 50, pk 0 60, pk 0 70,
    pk 0 80, pk 0 500]

/-- Ten records with non-decreasing timestamps (nine equal, one late) on
which the dilute selection loop also overruns the stream. -/
def diluteOobTies : List Packet :=
  [pk 0 0, pk 0 0, pk 0 0, pk 0 0, pk 0 0, pk 0 0, pk 0 0, pk 0 0, pk 0 0,
    pk 0 500]

/-- Two records 100 microseconds apart. -/
def twoPacketStream : List Packet := [pk 0 0, pk 0 100]

/-- Two records 2 microseconds apart: augmenting them 1001-fold makes the
integer nanosecond interval collapse to zero and the whole output span
vanish. -/
def c3CexInput : List Packet := [pk 0 0, pk 0 2]

/-- First-to-last timestamp span of a stream, in microseconds. -/
def spanUsOf (l : List Packet) : Nat :=
  instantUs (l.getD (l.length - 1) default) - instantUs (l.getD 0 default)

/-- The literal claim C1 at one operation and one input: if the run failed
with a parameter or emptiness error, no output file was created. -/
def C1ClaimAt (r : RunResult) : Prop :=
  (r.error = some PcapError.invalidParameter ∨
    r.error = some PcapError.emptyStream ∨
    r.error = some PcapError.insufficientPackets) →
  r.outputCreated = false

instance (r : RunResult) : Decidable (C1ClaimAt r) :=
  inferInstanceAs (Decidable (_ → _))

/-- Modelled from the spec's words, for comparison with the code: with
`ignore_timestamp = true` the fingerprint hashes the captured-length bytes,
the original-length bytes and the payload; with `false` it hashes the
payload alone. -/
def specFingerprintBytes (ignore_timestamp : Bool) (p : Packet) :
    List Nat :=
  if ignore_timestamp then u32be p.incl_len ++ u32be p.orig_len ++ p.data
  else p.data

/-- Strictly increasing timestamps. -/
def StrictStream (l : List Packet) : Prop :=
  List.Chain' (fun a b => instantUs a < instantUs b) l

instance instDecStrictStream : (l : List Packet) → Decidable (StrictStream l)
  | [] => isTrue trivial
  | [_] => isTrue (List.chain'_singleton _)
  | a :: b :: r =>
      if h : instantUs a < instantUs b then
        match instDecStrictStream (b :: r) with
        | isTrue ht => isTrue (List.chain'_cons.mpr ⟨h, ht⟩)
        | isFalse hf => isFalse (fun hc => hf (List.chain'_cons.mp hc).2)
      else isFalse (fun hc => h (List.chain'_cons.mp hc).1)

/-- Trans instance for the non-decreasing-instant relation. -/
instance : IsTrans Packet (fun a b => instantUs a ≤ instantUs b) :=
  ⟨fun _ _ _ => le_trans⟩

/-! ## Basic facts about the shared helpers -/

theorem retimePacket_data (base : Packet) (s : Int) (p : Packet) :
    (retimePacket base s p).data = p.data := rfl

theorem retimePacket_incl (base : Packet) (s : Int) (p : Packet) :
    (retimePacket base s p).incl_len = p.incl_len := rfl

theorem retimePacket_orig (base : Packet) (s : Int) (p : Packet) :
    (retimePacket base s p).orig_len = p.orig_len := rfl

/-- The dilute selection loop only ever ends cleanly or with the
out-of-bounds panic; it never raises a parameter or emptiness error. -/
theorem diluteGo_error_eq (pkts : List Packet) (interval : Int)
    (tsec tusec cursor : Nat) (isFirst : Bool) (remaining : Nat)
    (e : PcapError) :
    (diluteGo pkts interval tsec tusec cursor isFirst remaining).2 = some e →
      e = PcapError.indexOutOfBounds := by
  induction remaining generalizing tsec tusec cursor isFirst with
  | zero => intro h; cases h
  | succ r ih =>
      simp only [diluteGo]
      split_ifs <;> first
        | exact ih _ _ _ _
        | (intro h; cases h; rfl)

/-! ## C1: validation errors versus output-file creation -/

/-- C1 is false as stated: Compress on an empty stream fails with
`EmptyStream`, yet the output file has already been created (and its
global header written) at that moment. -/
theorem C1_counterexample :
    ¬ C1ClaimAt (pcap_time_compressor [] 2) := by decide

/-- C1 amended: an `InvalidParameter` error is raised before the output
file is created, but `EmptyStream` and `InsufficientPackets` are raised
only after the output file exists; in those cases the file has been
created and no packet record has been written to it. -/
theorem C1_amended (input : List Packet) (f g : ℚ) (k m : Nat) :
    ((pcap_time_compressor input f).error = some PcapError.emptyStream →
      (pcap_time_compressor input f).outputCreated = true ∧
      (pcap_time_compressor input f).written = []) ∧
    ((pcap_time_dilator input g).error = some PcapError.emptyStream →
      (pcap_time_dilator input g).outputCreated = true ∧
      (pcap_time_dilator input g).written = []) ∧
    ((pcap_augment_timed input m).error = some PcapError.emptyStream →
      (pcap_augment_timed input m).outputCreated = true ∧
      (pcap_augment_timed input m).written = []) ∧
    (((pcap_dilute_timed_run input k).error = some PcapError.emptyStream ∨
      (pcap_dilute_timed_run input k).error =
        some PcapError.insufficientPackets) →
      (pcap_dilute_timed_run input k).outputCreated = true ∧
      (pcap_dilute_timed_run input k).written = []) ∧
    ((pcap_time_compressor input f).error =
        some PcapError.invalidParameter →
      (pcap_time_compressor input f).outputCreated = false) ∧
    ((pcap_time_dilator input g).error = some PcapError.invalidParameter →
      (pcap_time_dilator input g).outputCreated = false) ∧
    ((pcap_augment_timed input m).error = some PcapError.invalidParameter →
      (pcap_augment_timed input m).outputCreated = false) ∧
    ((pcap_dilute_timed_run input k).error =
        some PcapError.invalidParameter →
      (pcap_dilute_timed_run input k).outputCreated = false) := by
  refine ⟨?_, ?_, ?_, ?_, ?_, ?_, ?_, ?_⟩
  · unfold pcap_time_compressor
    split
    · intro h; cases h
    · match input with
      | [] => exact fun _ => ⟨rfl, rfl⟩
      | first :: rest => intro h; cases h
  · unfold pcap_time_dilator
    split
    · intro h; cases h
    · match input with
      | [] => exact fun _ => ⟨rfl, rfl⟩
      | first :: rest => intro h; cases h
  · unfold pcap_augment_timed
    split
    · intro h; cases h
    · match input with
      | [] => exact fun _ => ⟨rfl, rfl⟩
      | first :: rest => intro h; cases h
  · unfold pcap_dilute_timed_run
    split_ifs
    · rintro (h | h) <;> cases h
    · exact fun _ => ⟨rfl, rfl⟩
    · exact fun _ => ⟨rfl, rfl⟩
    · rintro (h | h) <;>
        exact absurd (diluteGo_error_eq _ _ _ _ _ _ _ _ h) (by decide)
  · unfold pcap_time_compressor
    split
    · exact fun _ => rfl
    · match input with
      | [] => intro h; cases h
      | first :: rest => intro h; cases h
  · unfold pcap_time_dilator
    split
    · exact fun _ => rfl
    · match input with
      | [] => intro h; cases h
      | first :: rest => intro h; cases h
  · unfold pcap_augment_timed
    split
    · exact fun _ => rfl
    · match input with
      | [] => intro h; cases h
      | first :: rest => intro h; cases h
  · unfold pcap_dilute_timed_run
    split_ifs
    · exact fun _ => rfl
    · intro h; cases h
    · intro h; cases h
    · intro h
      exact absurd (diluteGo_error_eq _ _ _ _ _ _ _ _ h) (by decide)


theorem C1_amended_witness :
    ((pcap_time_compressor [] 2).outputCreated = true ∧
      (pcap_time_compressor [] 2).written = []) ∧
    ((pcap_time_dilator [] 2).outputCreated = true ∧
      (pcap_time_dilator [] 2).written = []) ∧
    ((pcap_augment_timed [] 2).outputCreated = true ∧
      (pcap_augment_timed [] 2).written = []) ∧
    ((pcap_dilute_timed_run [pk 0 0] 5).outputCreated = true ∧
      (pcap_dilute_timed_run [pk 0 0] 5).written = []) ∧
    (pcap_time_compressor [] 0).outputCreated = false ∧
    (pcap_time_dilator [] (-1)).outputCreated = false ∧
    (pcap_augment_timed [] 1).outputCreated = false ∧
    (pcap_dilute_timed_run [] 1).outputCreated = false := by
  refine ⟨(C1_amended [] 2 2 5 2).1 (by decide),
    (C1_amended [] 2 2 5 2).2.1 (by decide),
    (C1_amended [] 2 2 5 2).2.2.1 (by decide),
    (C1_amended [pk 0 0] 2 2 5 2).2.2.2.1 (Or.inr (by decide)),
    (C1_amended [] 0 (-1) 1 1).2.2.2.2.1 (by decide),
    (C1_amended [] 0 (-1) 1 1).2.2.2.2.2.1 (by decide),
    (C1_amended [] 0 (-1) 1 1).2.2.2.2.2.2.1 (by decide),
    (C1_amended [] 0 (-1) 1 1).2.2.2.2.2.2.2 (by decide)⟩

/-! ## C6: the dilute selection cursor can run out of bounds -/

/-- C6 is wrong about the code and the code is wrong: even on a stream with
strictly increasing (hence non-decreasing) well-formed timestamps the
dilute nearest-record selection moves its cursor past the last record while
output records remain to be selected, and the write
`original_packets[best_index]` indexes out of range (a panic in Rust,
modelled as the `indexOutOfBounds` outcome). -/
theorem C6_dilute_index_out_of_bounds :
    SortedStream diluteOobSorted ∧ WFStream diluteOobSorted ∧
    diluteOobSorted.length = 10 ∧
    pcap_dilute_timed diluteOobSorted 2 =
      .error PcapError.indexOutOfBounds := by decide

/-! ## C7: Compress/Stretch preserve count, payload, lengths, first stamp -/

/-- Payload and length fields survive the timestamp rewrite of a whole
mapped stream, position by position. -/
theorem mapRetimeFrame (first : Packet) (rest : List Packet)
    (F : Packet → Packet)
    (hF : ∀ p, (F p).data = p.data ∧ (F p).incl_len = p.incl_len ∧
      (F p).orig_len = p.orig_len)
    (i : Nat) (h : i < (first :: rest).length) :
    ((first :: rest.map F).getD i default).data =
      ((first :: rest).getD i default).data ∧
    ((first :: rest.map F).getD i default).incl_len =
      ((first :: rest).getD i default).incl_len ∧
    ((first :: rest.map F).getD i default).orig_len =
      ((first :: rest).getD i default).orig_len := by
  cases i with
  | zero => exact ⟨rfl, rfl, rfl⟩
  | succ i =>
      have hi : i < rest.length := by simpa using h
      have hi' : i + 1 < (first :: rest.map F).length := by simpa using hi
      have hi'' : i + 1 < (first :: rest).length := by simpa using hi
      rw [List.getD_eq_getElem _ _ hi', List.getD_eq_getElem _ _ hi'']
      simp only [List.getElem_cons_succ, List.getElem_map]
      exact hF _

/-- C7: for every non-empty stream and valid factor, Compress (resp.
Stretch) succeeds, keeps the record count, keeps payload and both length
fields of every record, and keeps the first record (hence its timestamp)
unchanged. -/
theorem C7_compress_stretch_frame (input : List Packet) (f g : ℚ)
    (hne : input ≠ []) (hf : 1 < f) (hg : 0 < g) :
    ((pcap_time_compressor input f).error = none ∧
      (pcap_time_compressor input f).written.length = input.length ∧
      (pcap_time_compressor input f).written.head? = input.head? ∧
      ∀ i < input.length,
        (((pcap_time_compressor input f).written.getD i default).data =
            (input.getD i default).data ∧
          ((pcap_time_compressor input f).written.getD i
              default).incl_len = (input.getD i default).incl_len ∧
          ((pcap_time_compressor input f).written.getD i
              default).orig_len = (input.getD i default).orig_len)) ∧
    ((pcap_time_dilator input g).error = none ∧
      (pcap_time_dilator input g).written.length = input.length ∧
      (pcap_time_dilator input g).written.head? = input.head? ∧
      ∀ i < input.length,
        (((pcap_time_dilator input g).written.getD i default).data =
            (input.getD i default).data ∧
          ((pcap_time_dilator input g).written.getD i default).incl_len =
            (input.getD i default).incl_len ∧
          ((pcap_time_dilator input g).written.getD i default).orig_len =
            (input.getD i default).orig_len)) := by
  obtain ⟨first, rest, rfl⟩ := List.exists_cons_of_ne_nil hne
  constructor
  · have hnot : ¬ f ≤ 1 := not_le.mpr hf
    have hw : pcap_time_compressor (first :: rest) f =
        ⟨true, first :: rest.map (fun p =>
          retimePacket first (compressScaled f (totalMicros first p)) p),
          none⟩ := by
      simp only [pcap_time_compressor, if_neg hnot]
    rw [hw]
    refine ⟨rfl, by simp, rfl, ?_⟩
    intro i hi
    exact mapRetimeFrame first rest
      (fun p => retimePacket first (compressScaled f (totalMicros first p)) p)
      (fun p => ⟨rfl, rfl, rfl⟩) i hi
  · have hnot : ¬ g ≤ 0 := not_le.mpr hg
    have hw : pcap_time_dilator (first :: rest) g =
        ⟨true, first :: rest.map (fun p =>
          retimePacket first (stretchScaled g (totalMicros first p)) p),
          none⟩ := by
      simp only [pcap_time_dilator, if_neg hnot]
    rw [hw]
    refine ⟨rfl, by simp, rfl, ?_⟩
    intro i hi
    exact mapRetimeFrame first rest
      (fun p => retimePacket first (stretchScaled g (totalMicros first p)) p)
      (fun p => ⟨rfl, rfl, rfl⟩) i hi

theorem C7_compress_stretch_frame_witness :
    (pcap_time_compressor [pk 0 0, pk 0 10] 2).error = none ∧
    (pcap_time_compressor [pk 0 0, pk 0 10] 2).written.length = 2 ∧
    (pcap_time_compressor [pk 0 0, pk 0 10] 2).written.head? =
      some (pk 0 0) ∧
    (pcap_time_dilator [pk 0 0, pk 0 10] 3).error = none := by
  have h := C7_compress_stretch_frame [pk 0 0, pk 0 10] 2 3
    (by decide) (by norm_num) (by norm_num)
  exact ⟨h.1.1, by rw [h.1.2.1]; rfl, h.1.2.2.1, h.2.1⟩

/-! ## C9: the comparator's fingerprint input bytes -/

/-- C9: the byte buffer the code hashes is exactly the one the spec
describes in each mode, and in neither mode do the timestamp fields
influence the fingerprint, so the two modes differ only in whether the two
length fields are hashed. -/
theorem C9_fingerprint_bytes (p : Packet) (ig : Bool) (s u : Nat) :
    readHashBuffer ig p = specFingerprintBytes ig p ∧
    readHashBuffer ig { p with ts_sec := s, ts_usec := u } =
      readHashBuffer ig p := by
  cases ig <;> exact ⟨rfl, rfl⟩

/-! ## C8 and C2: what Dilute writes when it does not crash -/

/-- A later drop of the same list is a sublist of an earlier drop. -/
theorem drop_sublist_drop_of_le {α : Type} (l : List α) {m n : Nat}
    (h : n ≤ m) : (l.drop m).Sublist (l.drop n) := by
  have heq : l.drop m = (l.drop n).drop (m - n) := by
    rw [List.drop_drop]; congr 1; omega
  rw [heq]; exact List.drop_sublist _ _

/-- The scan never returns an index below both its cursor and its incoming
candidate. -/
theorem scanBest_le (tsec tusec : Nat) (l : List Packet) :
    ∀ (j best : Nat) (bd : Int),
      min best j ≤ (scanBest tsec tusec l j best bd).1 := by
  induction l with
  | nil => intro j best bd; exact min_le_left _ _
  | cons p rem ih =>
      intro j best bd
      simp only [scanBest]
      split_ifs
      · exact le_trans (by omega) (ih (j + 1) j _)
      · exact min_le_left _ _
      · exact le_trans (by omega) (ih (j + 1) best _)

/-- Once the best distance is zero the scan can never improve it, so the
candidate is returned unchanged. -/
theorem scanBest_bd_zero (tsec tusec : Nat) (l : List Packet) :
    ∀ (j best : Nat), scanBest tsec tusec l j best 0 = (best, 0) := by
  induction l with
  | nil => intro j best; rfl
  | cons p rem ih =>
      intro j best
      simp only [scanBest]
      split_ifs with h1 h2
      · exact absurd h1 (abs_nonneg _).not_lt
      · rfl
      · exact ih _ _

/-- Scanning for the very first target point (the first record's own
timestamp) from cursor zero selects index zero at distance zero. -/
theorem scanBest_self_head (first : Packet) (rest : List Packet) :
    scanBest first.ts_sec first.ts_usec (first :: rest) 0 0
      9223372036854775807 = (0, 0) := by
  have hd : ((first.ts_sec : Int) - (first.ts_sec : Int)) * 1000000 +
      ((first.ts_usec : Int) - (first.ts_usec : Int)) = 0 := by ring
  simp only [scanBest, hd, abs_zero]
  rw [if_pos (by decide : (0 : Int) < 9223372036854775807)]
  exact scanBest_bd_zero _ _ _ _ _

/-- Whenever the selection loop finishes without the out-of-bounds panic it
has emitted one record per target point, and what it emits is always (also
on a panic) a subsequence of the stream from the cursor on: each round
picks an index at or past the cursor and restarts past it. -/
theorem diluteGo_spec (pkts : List Packet) (interval : Int) :
    ∀ (remaining tsec tusec cursor : Nat) (isFirst : Bool),
    ((diluteGo pkts interval tsec tusec cursor isFirst remaining).2 = none →
      (diluteGo pkts interval tsec tusec cursor isFirst remaining).1.length
        = remaining) ∧
    (diluteGo pkts interval tsec tusec cursor isFirst
        remaining).1.Sublist (pkts.drop cursor) := by
  intro remaining
  induction remaining with
  | zero => exact fun _ _ _ _ => ⟨fun _ => rfl, List.nil_sublist _⟩
  | succ r ih =>
      intro tsec tusec cursor isFirst
      simp only [diluteGo]
      split <;>
        · split
          · rename_i hlt
            dsimp only
            refine ⟨fun h => ?_, ?_⟩
            · rw [List.length_cons, (ih _ _ _ _).1 h]
            · refine List.Sublist.trans
                (List.Sublist.cons₂ _ ((ih _ _ _ _).2)) ?_
              rw [← List.drop_eq_getElem_cons hlt]
              refine drop_sublist_drop_of_le _ ?_
              exact le_trans (by omega)
                (scanBest_le _ _ (pkts.drop cursor) cursor cursor _)
          · dsimp only
            refine ⟨fun h => absurd h (by simp), List.nil_sublist _⟩

/-- Success of the fallible dilute view is success of the run. -/
theorem dilute_ok_iff (input : List Packet) (k : Nat) (out : List Packet) :
    pcap_dilute_timed input k = .ok out ↔
    (pcap_dilute_timed_run input k).written = out ∧
    (pcap_dilute_timed_run input k).error = none := by
  unfold pcap_dilute_timed
  cases hrun : pcap_dilute_timed_run input k with
  | mk c w err => cases err <;> simp

/-- Past its three validations, the dilute run is the selection loop over
`n / k` target points started at the first record's timestamp. -/
theorem dilute_run_loop (input : List Packet) (k : Nat)
    (h1 : ¬ k < 2) (h2 : ¬ input.length = 0) (h3 : ¬ input.length < k) :
    pcap_dilute_timed_run input k =
      ⟨true,
        (diluteGo input
          ((totalMicros input.headI (input.getLastD default)).tdiv
            ((input.length / k : Nat) : Int))
          input.headI.ts_sec input.headI.ts_usec 0 true
          (input.length / k)).1,
        (diluteGo input
          ((totalMicros input.headI (input.getLastD default)).tdiv
            ((input.length / k : Nat) : Int))
          input.headI.ts_sec input.headI.ts_usec 0 true
          (input.length / k)).2⟩ := by
  simp only [pcap_dilute_timed_run, if_neg h1, if_neg h2, if_neg h3]

/-- C8 is false as stated: on ten non-decreasing records with factor 2 the
dilute loop crashes out of bounds instead of producing `floor(10/2) = 5`
records; the partial output written before the crash has only 4 records. -/
theorem C8_counterexample :
    SortedStream diluteOobTies ∧ WFStream diluteOobTies ∧
    diluteOobTies.length = 10 ∧
    pcap_dilute_timed diluteOobTies 2 =
      .error PcapError.indexOutOfBounds ∧
    (pcap_dilute_timed_run diluteOobTies 2).written.length = 4 := by decide

/-- C8 amended: whenever Dilute returns successfully (it can instead crash
out of bounds), it outputs exactly `floor(n/k)` records and the output is
a subsequence of the input taken at strictly increasing input indices, so
every output record is an input record kept with its original content and
timestamp. -/
theorem C8_amended (input : List Packet) (k : Nat) (out : List Packet)
    (hk : 2 ≤ k) (hkn : k ≤ input.length) (hs : SortedStream input)
    (h : pcap_dilute_timed input k = .ok out) :
    out.length = input.length / k ∧ out.Sublist input ∧
      ∀ p ∈ out, p ∈ input := by
  have h1 : ¬ k < 2 := not_lt.mpr hk
  have h2 : ¬ input.length = 0 := by omega
  have h3 : ¬ input.length < k := not_lt.mpr hkn
  rw [dilute_ok_iff] at h
  obtain ⟨hw, he⟩ := h
  rw [dilute_run_loop _ _ h1 h2 h3] at hw he
  dsimp only at hw he
  subst hw
  have hsub : ((diluteGo input
      ((totalMicros input.headI (input.getLastD default)).tdiv
        ((input.length / k : Nat) : Int))
      input.headI.ts_sec input.headI.ts_usec 0 true
      (input.length / k)).1).Sublist input :=
    (diluteGo_spec input _ _ _ _ _ _).2
  exact ⟨(diluteGo_spec input _ _ _ _ _ _).1 he, hsub,
    fun p hp => hsub.subset hp⟩

theorem C8_amended_witness :
    (pcap_dilute_timed_run twoPacketStream 2).written.length =
      twoPacketStream.length / 2 ∧
    (pcap_dilute_timed_run twoPacketStream 2).written.Sublist
      twoPacketStream := by
  have h := C8_amended twoPacketStream 2
    (pcap_dilute_timed_run twoPacketStream 2).written
    (by decide) (by decide) (by decide) (by decide)
  exact ⟨h.1, h.2.1⟩

/-- C2 is false as stated: diluting two records 100 microseconds apart by
factor 2 succeeds and keeps the first record, but the single output record
is the first one, so the last output timestamp is not the last input
timestamp and the time span is not preserved. -/
theorem C2_counterexample :
    SortedStream twoPacketStream ∧ WFStream twoPacketStream ∧
    twoPacketStream.length = 2 ∧
    pcap_dilute_timed twoPacketStream 2 = .ok [pk 0 0] ∧
    [pk 0 0].head? = twoPacketStream.head? ∧
    instantUs ([pk 0 0].getLastD default) ≠
      instantUs (twoPacketStream.getLastD default) := by decide

/-- C2 amended: whenever Dilute returns successfully, the first output
record is the first input record (so the output starts at the input's
first timestamp); the last output record's timestamp is in general not the
last input record's timestamp. -/
theorem C2_amended (input : List Packet) (k : Nat) (out : List Packet)
    (hk : 2 ≤ k) (hkn : k ≤ input.length) (hs : SortedStream input)
    (h : pcap_dilute_timed input k = .ok out) :
    out.head? = input.head? := by
  have h1 : ¬ k < 2 := not_lt.mpr hk
  have h2 : ¬ input.length = 0 := by omega
  have h3 : ¬ input.length < k := not_lt.mpr hkn
  rw [dilute_ok_iff] at h
  obtain ⟨hw, he⟩ := h
  rw [dilute_run_loop _ _ h1 h2 h3] at hw
  dsimp only at hw
  rcases input with _ | ⟨first, rest⟩
  · simp at h2
  · obtain ⟨T, hT⟩ : ∃ T, (first :: rest).length / k = T + 1 := by
      have h4 : 1 ≤ (first :: rest).length / k :=
        (Nat.one_le_div_iff (by omega)).mpr hkn
      exact ⟨(first :: rest).length / k - 1, by omega⟩
    rw [hT] at hw
    simp only [List.headI, diluteGo, reduceIte, List.drop_zero] at hw
    simp only [scanBest_self_head] at hw
    rw [dif_pos (show (0 : Nat) < (first :: rest).length by simp)] at hw
    simp only [List.getElem_cons_zero] at hw
    rw [← hw]
    rfl

theorem C2_amended_witness :
    (pcap_dilute_timed_run twoPacketStream 2).written.head? =
      twoPacketStream.head? :=
  C2_amended twoPacketStream 2
    (pcap_dilute_timed_run twoPacketStream 2).written
    (by decide) (by decide) (by decide) (by decide)

/-! ## C10: the disorder detector -/

/-- For a codec-range record the `Duration` has no wrap and no carry. -/
theorem durOf_wf (p : Packet) (h : WF32 p) :
    durOf p = (p.ts_sec, p.ts_usec * 1000) := by
  obtain ⟨h1, h2⟩ := h
  unfold durOf
  have hlt : p.ts_usec * 1000 < 1000000000 := by omega
  have hm : p.ts_usec * 1000 % 4294967296 = p.ts_usec * 1000 :=
    Nat.mod_eq_of_lt (by omega)
  simp only [hm, Nat.div_eq_of_lt hlt, Nat.mod_eq_of_lt hlt, Nat.add_zero]

/-- For codec-range records the `Duration` comparison is the instant
comparison. -/
theorem durLtB_iff (a b : Packet) (ha : WF32 a) (hb : WF32 b) :
    durLtB (durOf a) (durOf b) = true ↔ instantUs a < instantUs b := by
  rw [durOf_wf a ha, durOf_wf b hb]
  obtain ⟨ha1, ha2⟩ := ha
  obtain ⟨hb1, hb2⟩ := hb
  unfold durLtB instantUs
  simp only [Bool.or_eq_true, Bool.and_eq_true, decide_eq_true_eq]
  omega

/-- Inserting at the front is consing. -/
theorem insertIdx_zero_eq {α : Type} (x : α) (l : List α) :
    l.insertIdx 0 x = x :: l := rfl

/-- One step of the detector pass. -/
theorem disorderGo_cons (prev : Nat × Nat) (p : Packet)
    (rest : List Packet) (idx : Nat) :
    disorderGo prev (p :: rest) idx =
      if durLtB (durOf p) prev = true then
        idx :: disorderGo (durOf p) rest (idx + 1)
      else disorderGo (durOf p) rest (idx + 1) := rfl

/-- A strictly ascending run above `prev` yields no violations. -/
theorem disorderGo_none (l : List Packet) :
    ∀ (prev : Packet) (idx : Nat), WF32 prev → WFStream l →
    List.Chain (fun a b => instantUs a < instantUs b) prev l →
    disorderGo (durOf prev) l idx = [] := by
  induction l with
  | nil => intro prev idx _ _ _; rfl
  | cons p rest ih =>
      intro prev idx hp hl hchain
      cases hchain with
      | cons hlt hchain' =>
          simp only [disorderGo]
          rw [if_neg]
          · exact ih p (idx + 1) (hl p (by simp))
              (fun q hq => hl q (by simp [hq])) hchain'
          · rw [durLtB_iff p prev (hl p (by simp)) hp]
            omega

/-- Inserting one record below its predecessor into a strictly ascending
run above `prev` yields exactly the violation at the insertion offset. -/
theorem disorderGo_insert (l : List Packet) :
    ∀ (q : Nat) (x prev : Packet) (idx : Nat), WF32 prev → WF32 x →
    WFStream l → q ≤ l.length →
    List.Chain (fun a b => instantUs a < instantUs b) prev l →
    instantUs x < instantUs ((prev :: l).getD q default) →
    disorderGo (durOf prev) (l.insertIdx q x) idx = [idx + q] := by
  induction l with
  | nil =>
      intro q x prev idx hp hx _ hq _ hlt
      have hq0 : q = 0 := by simp at hq; omega
      subst hq0
      rw [insertIdx_zero_eq, disorderGo_cons, if_pos]
      · simp [disorderGo]
      · rw [durLtB_iff x prev hx hp]
        simpa using hlt
  | cons b rest ih =>
      intro q x prev idx hp hx hl hq hchain hlt
      cases hchain with
      | cons hpb hchain' =>
          cases q with
          | zero =>
              have hxb : instantUs x < instantUs b :=
                lt_trans (by simpa using hlt) hpb
              rw [insertIdx_zero_eq, disorderGo_cons, if_pos]
              · rw [disorderGo_none (b :: rest) x (idx + 1) hx hl
                  (List.Chain.cons hxb hchain')]
                simp
              · rw [durLtB_iff x prev hx hp]
                simpa using hlt
          | succ q' =>
              simp only [List.insertIdx_succ_cons]
              rw [disorderGo_cons, if_neg]
              · rw [ih q' x b (idx + 1) (hl b (by simp)) hx
                  (fun r hr => hl r (by simp [hr])) (by simpa using hq)
                  hchain' (by simpa using hlt)]
                congr 1
                omega
              · rw [durLtB_iff b prev (hl b (by simp)) hp]
                omega

/-- C10: on a well-formed stream with strictly increasing timestamps the
detector reports no ordering violation, and inserting one record whose
timestamp is below its predecessor's at position `p` makes it report
exactly one violation, at (zero-based) position `p` — the code logs the
one-based running packet count `p + 1` for that same record. -/
theorem C10_disorder_detector (s : List Packet) (x : Packet) (p : Nat)
    (hws : WFStream s) (hstrict : StrictStream s) :
    detect_pcap_disorder s = [] ∧
    (WF32 x → 1 ≤ p → p ≤ s.length →
      instantUs x < instantUs (s.getD (p - 1) default) →
      detect_pcap_disorder (s.insertIdx p x) = [p]) := by
  constructor
  · cases s with
    | nil => rfl
    | cons a rest =>
        exact disorderGo_none rest a 1 (hws a (by simp))
          (fun q hq => hws q (by simp [hq])) hstrict
  · intro hwx hp1 hps hlt
    cases s with
    | nil => simp at hps; omega
    | cons a rest =>
        obtain ⟨q', rfl⟩ : ∃ q', p = q' + 1 := ⟨p - 1, by omega⟩
        rw [List.insertIdx_succ_cons]
        simp only [detect_pcap_disorder]
        rw [disorderGo_insert rest q' x a 1 (hws a (by simp)) hwx
          (fun r hr => hws r (by simp [hr])) (by simpa using hps) hstrict
          (by simpa using hlt)]
        simp [Nat.add_comm]

theorem C10_disorder_detector_witness :
    detect_pcap_disorder [pk 0 0, pk 0 10, pk 0 20] = [] ∧
    detect_pcap_disorder
      ([pk 0 0, pk 0 10, pk 0 20].insertIdx 2 (pk 0 5)) = [2] := by
  have h := C10_disorder_detector [pk 0 0, pk 0 10, pk 0 20] (pk 0 5) 2
    (by decide) (by decide)
  exact ⟨h.1, h.2 (by decide) (by decide) (by decide) (by decide)⟩

/-! ## C3: what Augment writes -/

/-- Splitting a nanosecond value into seconds and microsecond residue and
recombining on the microsecond axis is truncation to microseconds. -/
theorem ns_micro_identity (ns : Nat) :
    ns / 1000000000 * 1000000 + ns % 1000000000 / 1000 = ns / 1000 := by
  omega

/-- Below the `u32` second limit the augment grid timestamp is exactly the
grid nanosecond value truncated to whole microseconds. -/
theorem augmentBuild_instant (input : List Packet) (fns I i : Nat)
    (hb : fns + I * i < 4294967296 * 1000000000) :
    instantUs (augmentBuild input fns I i) = (fns + I * i) / 1000 := by
  unfold augmentBuild instantUs
  dsimp only
  rw [Nat.mod_eq_of_lt (by omega : (fns + I * i) / 1000000000 < 4294967296)]
  omega

/-- Past its validations, the augment run maps the grid builder over
`0..n*m`. -/
theorem augment_run_loop (first : Packet) (rest : List Packet) (m : Nat)
    (hm : ¬ m < 2) :
    pcap_augment_timed (first :: rest) m =
      ⟨true, (List.range ((first :: rest).length * m)).map
        (augmentBuild (first :: rest)
          (first.ts_sec * 1000000000 + first.ts_usec * 1000)
          (if (first :: rest).length * m > 1 then
            (((first :: rest).getLast (by simp)).ts_sec * 1000000000 +
                ((first :: rest).getLast (by simp)).ts_usec * 1000 -
                (first.ts_sec * 1000000000 + first.ts_usec * 1000)) /
              ((first :: rest).length * m - 1)
          else 0)), none⟩ := by
  simp only [pcap_augment_timed, if_neg hm]

/-- Walking a non-decreasing chain can only raise the instant, up to the
last element. -/
theorem chain_le_lastD (l : List Packet) :
    ∀ (a : Packet),
    List.Chain (fun x y => instantUs x ≤ instantUs y) a l →
    instantUs a ≤ instantUs (l.getLastD a) := by
  induction l with
  | nil => intro a _; exact le_refl _
  | cons b r ih =>
      intro a hchain
      cases hchain with
      | cons hab hbr =>
          rw [List.getLastD_cons]
          exact le_trans hab (ih b hbr)

/-- A mapped range whose values have non-decreasing instants is a sorted
stream. -/
theorem sorted_map_range (T : Nat) (f : Nat → Packet)
    (hf : ∀ i, i + 1 < T → instantUs (f i) ≤ instantUs (f (i + 1))) :
    SortedStream ((List.range T).map f) := by
  apply List.chain'_iff_get.mpr
  intro i hlen
  simp only [List.get_eq_getElem, List.getElem_map, List.getElem_range]
  have hi : i + 1 < T := by
    simp only [List.length_map, List.length_range] at hlen
    omega
  exact hf i hi

/-- C3 amended: Augment outputs exactly `n*m` records with non-decreasing
timestamps, evenly spaced at the fixed nanosecond interval
`span_ns / (n*m - 1)` truncated to whole microseconds; the output span
falls short of the input span by exactly
`ceil((span_ns mod (n*m - 1)) / 1000)` microseconds — which can exceed one
microsecond once `n*m` exceeds about a thousand. -/
theorem C3_amended (input : List Packet) (m : Nat) (hne : input ≠ [])
    (hm : 2 ≤ m) (hwf : WFStream input) (hs : SortedStream input) :
    (pcap_augment_timed input m).error = none ∧
    (pcap_augment_timed input m).written.length = input.length * m ∧
    (∀ i, i < input.length * m →
      instantUs ((pcap_augment_timed input m).written.getD i default) =
        (instantUs (input.getD 0 default) * 1000 +
          spanUsOf input * 1000 / (input.length * m - 1) * i) / 1000) ∧
    SortedStream (pcap_augment_timed input m).written ∧
    spanUsOf (pcap_augment_timed input m).written =
      spanUsOf input -
        (spanUsOf input * 1000 % (input.length * m - 1) + 999) / 1000 := by
  obtain ⟨first, rest, rfl⟩ := List.exists_cons_of_ne_nil hne
  have hm' : ¬ m < 2 := not_lt.mpr hm
  rw [augment_run_loop first rest m hm']
  have hn1 : 1 ≤ (first :: rest).length := by simp
  have hT1 : 1 < (first :: rest).length * m := by
    have := Nat.mul_le_mul hn1 hm
    omega
  rw [if_pos hT1]
  set n := (first :: rest).length with hn
  set L := (first :: rest).getLast (by simp) with hL
  set iF := instantUs first with hiF
  set iL := instantUs L with hiL
  have hgetD0 : (first :: rest).getD 0 default = first := rfl
  have hlast_getD : (first :: rest).getD (n - 1) default = L := by
    rw [List.getD_eq_getElem _ _ (show n - 1 < (first :: rest).length by
      omega)]
    rw [hL, List.getLast_eq_getElem]
  have hFle : iF ≤ iL := by
    have h1 := chain_le_lastD rest first hs
    rw [hiL, hL, List.getLast_eq_getLastD]
    exact h1
  have hwl : WF32 L := hwf L (List.getLast_mem _)
  have hiLlt : iL < 4294967296 * 1000000 := by
    obtain ⟨w1, w2⟩ := hwl
    rw [hiL]
    unfold instantUs
    omega
  have hfns : first.ts_sec * 1000000000 + first.ts_usec * 1000 =
      iF * 1000 := by
    rw [hiF]; unfold instantUs; ring
  have hlns : L.ts_sec * 1000000000 + L.ts_usec * 1000 = iL * 1000 := by
    rw [hiL]; unfold instantUs; ring
  have hspan_in : spanUsOf (first :: rest) = iL - iF := by
    unfold spanUsOf
    rw [hlast_getD, hgetD0]
  rw [hfns, hlns]
  set I := (iL * 1000 - iF * 1000) / (n * m - 1) with hI
  have hb : ∀ i, i < n * m →
      iF * 1000 + I * i < 4294967296 * 1000000000 := by
    intro i hi
    have h1 : I * i ≤ I * (n * m - 1) :=
      Nat.mul_le_mul_left _ (by omega)
    have h2 : I * (n * m - 1) ≤ iL * 1000 - iF * 1000 := by
      rw [hI]; exact Nat.div_mul_le_self _ _
    omega
  have hc : ∀ i, i < n * m →
      instantUs (((List.range (n * m)).map
          (augmentBuild (first :: rest) (iF * 1000) I)).getD i default) =
        (iF * 1000 + I * i) / 1000 := by
    intro i hi
    rw [List.getD_eq_getElem _ _ (by simpa using hi)]
    rw [List.getElem_map, List.getElem_range]
    exact augmentBuild_instant _ _ _ _ (hb i hi)
  refine ⟨rfl, by simp, ?_, ?_, ?_⟩
  · intro i hi
    rw [hgetD0, hspan_in]
    rw [show (iL - iF) * 1000 = iL * 1000 - iF * 1000 from
      Nat.sub_mul _ _ _]
    exact hc i hi
  · refine sorted_map_range _ _ ?_
    intro i hi
    rw [augmentBuild_instant _ _ _ _ (hb i (by omega)),
      augmentBuild_instant _ _ _ _ (hb (i + 1) hi)]
    have hmono : I * i ≤ I * (i + 1) := Nat.mul_le_mul_left _ (by omega)
    exact Nat.div_le_div_right (by omega)
  · have e0 := hc 0 (by omega)
    have e1 := hc (n * m - 1) (by omega)
    rw [hspan_in]
    unfold spanUsOf
    simp only [List.length_map, List.length_range]
    rw [e1, e0]
    have hP : I * (n * m - 1) + (iL * 1000 - iF * 1000) % (n * m - 1) =
        iL * 1000 - iF * 1000 := by
      rw [hI, Nat.mul_comm]
      exact Nat.div_add_mod _ _
    rw [show (iL - iF) * 1000 = iL * 1000 - iF * 1000 from
      Nat.sub_mul _ _ _]
    omega

theorem C3_amended_witness :
    (pcap_augment_timed [pk 0 3, pk 0 8] 2).error = none ∧
    (pcap_augment_timed [pk 0 3, pk 0 8] 2).written.length = 4 ∧
    spanUsOf (pcap_augment_timed [pk 0 3, pk 0 8] 2).written =
      spanUsOf [pk 0 3, pk 0 8] -
        (spanUsOf [pk 0 3, pk 0 8] * 1000 % 3 + 999) / 1000 := by
  have h := C3_amended [pk 0 3, pk 0 8] 2 (by decide) (by decide)
    (by decide) (by decide)
  exact ⟨h.1, by rw [h.2.1]; rfl, h.2.2.2.2⟩

/-- C3 is false as stated: augmenting two records 2 microseconds apart by
`m = 1001` produces 2002 records all at the first timestamp — the integer
nanosecond interval `2000 / 2001` collapses to zero, so the output span is
0 while the input span is 2 microseconds, more than one rounding unit
away. -/
theorem C3_counterexample :
    SortedStream c3CexInput ∧ WFStream c3CexInput ∧
    c3CexInput.length = 2 ∧
    (pcap_augment_timed c3CexInput 1001).written.length = 2 * 1001 ∧
    spanUsOf (pcap_augment_timed c3CexInput 1001).written = 0 ∧
    spanUsOf c3CexInput = 2 ∧
    ¬ (spanUsOf c3CexInput ≤
        spanUsOf (pcap_augment_timed c3CexInput 1001).written + 1 ∧
      spanUsOf (pcap_augment_timed c3CexInput 1001).written ≤
        spanUsOf c3CexInput + 1) := by
  have hw : pcap_augment_timed c3CexInput 1001 =
      ⟨true, (List.range 2002).map (augmentBuild c3CexInput 0 0),
        none⟩ := rfl
  have hwl : (pcap_augment_timed c3CexInput 1001).written.length = 2002 := by
    rw [hw]
    simp
  have hspan : spanUsOf (pcap_augment_timed c3CexInput 1001).written = 0 := by
    rw [hw]
    unfold spanUsOf
    dsimp only
    simp only [List.length_map, List.length_range]
    rw [List.getD_eq_getElem _ _ (by simp : 2002 - 1 < (((List.range 2002).map (augmentBuild c3CexInput 0 0))).length),
      List.getD_eq_getElem _ _ (by simp : 0 < (((List.range 2002).map (augmentBuild c3CexInput 0 0))).length)]
    simp only [List.getElem_map, List.getElem_range]
    decide
  refine ⟨by decide, by decide, by decide, by rw [hwl], hspan, by decide, ?_⟩
  rw [hspan]
  decide

/-! ## C4: Compress then Stretch round trip -/

/-- `⌊x + 1/2⌋` is within half a unit of `x`. -/
theorem floor_half_close (x : ℚ) : |(⌊x + 1 / 2⌋ : ℚ) - x| ≤ 1 / 2 := by
  rw [abs_le]
  constructor
  · have h := Int.sub_one_lt_floor (x + 1 / 2)
    push_cast at h ⊢
    linarith
  · have h := Int.floor_le (x + 1 / 2)
    push_cast at h ⊢
    linarith

/-- Rounding half away from zero is within half a unit of the value. -/
theorem rustRound_close (q : ℚ) : |(rustRound q : ℚ) - q| ≤ 1 / 2 := by
  unfold rustRound
  split_ifs with h
  · push_cast
    rw [show (-(⌊-q + 1 / 2⌋ : ℚ) - q) = -((⌊-q + 1 / 2⌋ : ℚ) - -q) by ring,
      abs_neg]
    exact floor_half_close (-q)
  · exact floor_half_close q

/-- Rounding a non-negative value gives a non-negative integer. -/
theorem rustRound_nonneg (q : ℚ) (h : 0 ≤ q) : 0 ≤ rustRound q := by
  unfold rustRound
  rw [if_neg (not_lt.mpr h)]
  exact Int.floor_nonneg.mpr (by linarith)

/-- Rounding `d / f` for `f ≥ 1` never exceeds the natural number `d`. -/
theorem rustRound_div_le (d : Nat) (f : ℚ) (hf : 1 ≤ f) :
    rustRound ((d : ℚ) / f) ≤ (d : Int) := by
  have h0 : (0 : ℚ) ≤ (d : ℚ) / f := by positivity
  unfold rustRound
  rw [if_neg (not_lt.mpr h0)]
  have hle : (d : ℚ) / f ≤ (d : ℚ) := div_le_self (by positivity) hf
  calc ⌊(d : ℚ) / f + 1 / 2⌋ ≤ ⌊(d : ℚ) + 1 / 2⌋ :=
        Int.floor_le_floor (by linarith)
    _ = (d : Int) := by
        rw [show ((d : ℚ) + 1 / 2) = (1 / 2 + ((d : Int) : ℚ) : ℚ) by
          push_cast; ring]
        rw [Int.floor_add_int]
        norm_num

/-- Within the `i64` range the saturating conversion is the identity. -/
theorem i64sat_eq (x : Int) (h1 : -9223372036854775808 ≤ x)
    (h2 : x ≤ 9223372036854775807) : i64sat x = x := by
  unfold i64sat
  omega

/-- The `i64` microsecond difference is the difference of instants. -/
theorem totalMicros_eq (base p : Packet) :
    totalMicros base p = (instantUs p : Int) - (instantUs base : Int) := by
  unfold totalMicros instantUs
  push_cast
  ring

/-- The timestamp rewrite always lands in the codec field ranges. -/
theorem retimePacket_wf (base : Packet) (s : Int) (p : Packet) :
    WF32 (retimePacket base s p) :=
  ⟨Nat.mod_lt _ (by norm_num), Nat.mod_lt _ (by norm_num)⟩

/-- For a non-negative offset that keeps the instant below the `u32`
second limit, the timestamp rewrite lands exactly at base instant plus
offset. -/
theorem retimePacket_instant (base p : Packet) (s : Int) (hwb : WF32 base)
    (hs0 : 0 ≤ s)
    (hbound : (instantUs base : Int) + s < 4294967296 * 1000000) :
    instantUs (retimePacket base s p) =
      ((instantUs base : Int) + s).toNat := by
  obtain ⟨k, rfl⟩ : ∃ k : Nat, s = (k : Int) :=
    ⟨s.toNat, (Int.toNat_of_nonneg hs0).symm⟩
  obtain ⟨hb1, hb2⟩ := hwb
  have hbound' : instantUs base + k < 4294967296 * 1000000 := by
    exact_mod_cast hbound
  unfold instantUs at hbound' ⊢
  unfold retimePacket u32ofInt
  dsimp only
  rw [Int.tdiv_eq_ediv (by positivity) (by positivity),
    Int.tmod_eq_emod (by positivity) (by positivity)]
  omega

/-- Round trip of one offset: compressing the microsecond offset `d` by
`f` and stretching the result by the same `f` lands within `(f+1)/2`
microseconds of `d`, with both rounded values in the `i64` range. -/
theorem compress_stretch_record (d : Nat) (f : ℚ) (hf : 1 < f)
    (hd : d < 4294967296 * 1000000)
    (hfb : (f + 1) / 2 < 4294967296 * 1000000) :
    ∃ c s : Nat,
      compressScaled f ((d : Nat) : Int) = (c : Int) ∧
      stretchScaled f ((c : Nat) : Int) = (s : Int) ∧
      c ≤ d ∧ |(s : ℚ) - (d : ℚ)| ≤ (f + 1) / 2 := by
  have hf0 : (0 : ℚ) < f := by linarith
  set r1 := rustRound ((d : ℚ) / f) with hr1
  have h1nn : 0 ≤ r1 := rustRound_nonneg _ (by positivity)
  have h1le : r1 ≤ (d : Int) := rustRound_div_le d f (le_of_lt hf)
  obtain ⟨c, hcI⟩ : ∃ c : Nat, r1 = (c : Int) := ⟨r1.toNat, by omega⟩
  have hcd : c ≤ d := by omega
  have hEq1 : compressScaled f ((d : Nat) : Int) = (c : Int) := by
    unfold compressScaled
    rw [show (((d : Nat) : Int) : ℚ) = (d : ℚ) by push_cast; ring]
    rw [← hr1, i64sat_eq r1 (by omega) (by omega), hcI]
  have hb1 : |(c : ℚ) * f - (d : ℚ)| ≤ f / 2 := by
    have h := rustRound_close ((d : ℚ) / f)
    rw [← hr1, hcI] at h
    have h' : |(c : ℚ) - (d : ℚ) / f| ≤ 1 / 2 := by exact_mod_cast h
    rw [show (c : ℚ) * f - (d : ℚ) = ((c : ℚ) - (d : ℚ) / f) * f by
      field_simp]
    rw [abs_mul, abs_of_pos hf0]
    calc |(c : ℚ) - (d : ℚ) / f| * f ≤ (1 / 2) * f :=
          mul_le_mul_of_nonneg_right h' (le_of_lt hf0)
      _ = f / 2 := by ring
  set r2 := rustRound ((c : ℚ) * f) with hr2
  have h2nn : 0 ≤ r2 := rustRound_nonneg _ (by positivity)
  have hclose2 := rustRound_close ((c : ℚ) * f)
  rw [← hr2] at hclose2
  have h2ub : (r2 : ℚ) ≤ (d : ℚ) + (f + 1) / 2 := by
    have h1 := abs_le.mp hclose2
    have h2 := abs_le.mp hb1
    linarith
  have h2ubI : r2 ≤ 9223372036854775807 := by
    by_contra hcon
    push_neg at hcon
    have hq : ((9223372036854775807 : Int) : ℚ) < (r2 : ℚ) := by
      exact_mod_cast hcon
    have hdq : (d : ℚ) < 4294967296 * 1000000 := by exact_mod_cast hd
    norm_num at hq
    linarith
  obtain ⟨s, hsI⟩ : ∃ s : Nat, r2 = (s : Int) := ⟨r2.toNat, by omega⟩
  have hEq2 : stretchScaled f ((c : Nat) : Int) = (s : Int) := by
    unfold stretchScaled
    rw [show (((c : Nat) : Int) : ℚ) = (c : ℚ) by push_cast; ring]
    rw [← hr2, i64sat_eq r2 (by omega) h2ubI, hsI]
  refine ⟨c, s, hEq1, hEq2, hcd, ?_⟩
  have hsq : (s : ℚ) = ((r2 : Int) : ℚ) := by rw [hsI]; push_cast; ring
  have h1 := abs_le.mp hclose2
  have h2 := abs_le.mp hb1
  rw [abs_le]
  constructor
  · rw [hsq]; linarith
  · rw [hsq]; linarith

/-- Round trip of one record: compress by `f`, then stretch the resulting
record by the same `f`, both against the unchanged first record. -/
theorem roundtrip_record (first p : Packet) (f : ℚ) (hf : 1 < f)
    (hwfst : WF32 first) (hwp : WF32 p)
    (hfle : instantUs first ≤ instantUs p)
    (hroomp : (instantUs p : ℚ) + (f + 1) / 2 < 4294967296 * 1000000)
    (hroomf : (f + 1) / 2 < 4294967296 * 1000000) :
    |(instantUs (retimePacket first
        (stretchScaled f (totalMicros first
          (retimePacket first (compressScaled f (totalMicros first p)) p)))
        (retimePacket first (compressScaled f (totalMicros first p)) p)) : ℚ)
      - (instantUs p : ℚ)| ≤ (f + 1) / 2 := by
  set dN := instantUs p - instantUs first with hdN
  have hdsum : instantUs p = instantUs first + dN := by omega
  have hplt : instantUs p < 4294967296 * 1000000 := by
    obtain ⟨w1, w2⟩ := hwp
    unfold instantUs
    omega
  have hdlt : dN < 4294967296 * 1000000 := by omega
  obtain ⟨c, s, hc1, hc2, hcd, hbnd⟩ :=
    compress_stretch_record dN f hf hdlt hroomf
  have ht1 : totalMicros first p = ((dN : Nat) : Int) := by
    rw [totalMicros_eq]
    omega
  rw [ht1, hc1]
  have hmid := retimePacket_instant first p (c : Int) hwfst
    (by positivity) (by omega)
  rw [show totalMicros first
      (retimePacket first ((c : Nat) : Int) p) = ((c : Nat) : Int) by
    rw [totalMicros_eq, hmid]; omega]
  rw [hc2]
  have hsub : (instantUs first : Int) + (s : Int) <
      4294967296 * 1000000 := by
    have h1 := (abs_le.mp hbnd).2
    have h2 : ((instantUs first : Nat) : ℚ) + (s : ℚ) <
        4294967296 * 1000000 := by
      have hq : ((instantUs p : Nat) : ℚ) =
          (instantUs first : ℚ) + (dN : ℚ) := by
        rw [hdsum]; push_cast; ring
      rw [hq] at hroomp
      linarith
    exact_mod_cast h2
  have hfin := retimePacket_instant first
    (retimePacket first ((c : Nat) : Int) p) (s : Int) hwfst
    (by positivity) hsub
  rw [hfin]
  rw [show (((instantUs first : Int) + (s : Int)).toNat) =
    instantUs first + s by omega]
  rw [hdsum]
  push_cast
  rw [show ((instantUs first : ℚ) + (s : ℚ) -
      ((instantUs first : ℚ) + (dN : ℚ))) = ((s : ℚ) - (dN : ℚ)) by ring]
  exact hbnd

/-- C4 amended: applying Compress with factor `f` and then Stretch with
the same factor `f` (the operation that inverts Compress, since Compress
divides offsets and Stretch multiplies them) yields, for every record, a
timestamp within `(f + 1) / 2` microseconds of the original, provided the
stretched instants stay below the `u32` second limit.  With the literal
reciprocal factor `1 / f` the composition divides twice and is not a round
trip at all; and even with the same factor the error is not bounded by one
microsecond but by `(f + 1) / 2`. -/
theorem C4_amended (input : List Packet) (f : ℚ) (hne : input ≠ [])
    (hwf : WFStream input) (hs : SortedStream input) (hf : 1 < f)
    (hroom : ∀ p ∈ input,
      (instantUs p : ℚ) + (f + 1) / 2 < 4294967296 * 1000000) :
    (pcap_time_dilator (pcap_time_compressor input f).written
        f).written.length = input.length ∧
    ∀ i, i < input.length →
      |(instantUs ((pcap_time_dilator (pcap_time_compressor input f).written
            f).written.getD i default) : ℚ) -
          (instantUs (input.getD i default) : ℚ)| ≤ (f + 1) / 2 := by
  obtain ⟨first, rest, rfl⟩ := List.exists_cons_of_ne_nil hne
  have hnot1 : ¬ f ≤ 1 := not_le.mpr hf
  have hnot0 : ¬ f ≤ 0 := fun hcon => hnot1 (le_trans hcon (by norm_num))
  have hw1 : pcap_time_compressor (first :: rest) f =
      ⟨true, first :: rest.map (fun p =>
        retimePacket first (compressScaled f (totalMicros first p)) p),
        none⟩ := by
    simp only [pcap_time_compressor, if_neg hnot1]
  rw [hw1]
  dsimp only
  have hw2 : pcap_time_dilator (first :: rest.map (fun p =>
      retimePacket first (compressScaled f (totalMicros first p)) p)) f =
      ⟨true, first :: (rest.map (fun p =>
        retimePacket first (compressScaled f (totalMicros first p)) p)).map
          (fun q =>
            retimePacket first (stretchScaled f (totalMicros first q)) q),
        none⟩ := by
    simp only [pcap_time_dilator, if_neg hnot0]
  rw [hw2]
  dsimp only
  refine ⟨by simp, ?_⟩
  intro i hi
  have hroomf : (f + 1) / 2 < 4294967296 * 1000000 := by
    have h := hroom first (by simp)
    have h0 : (0 : ℚ) ≤ (instantUs first : ℚ) := by positivity
    linarith
  cases i with
  | zero =>
      show |(instantUs first : ℚ) - (instantUs first : ℚ)| ≤ (f + 1) / 2
      rw [sub_self, abs_zero]
      linarith
  | succ i =>
      have hi' : i < rest.length := by simpa using hi
      rw [List.getD_eq_getElem _ _ (show i + 1 <
        (first :: (rest.map (fun p => retimePacket first
          (compressScaled f (totalMicros first p)) p)).map
            (fun q => retimePacket first
              (stretchScaled f (totalMicros first q)) q)).length by
        simp [hi'])]
      rw [List.getD_eq_getElem _ _ (show i + 1 < (first :: rest).length by
        simpa using hi)]
      simp only [List.getElem_cons_succ, List.getElem_map]
      have hpmem : rest[i] ∈ rest := List.getElem_mem _
      have hpw : ∀ b ∈ rest, instantUs first ≤ instantUs b :=
        (List.pairwise_cons.mp (List.chain'_iff_pairwise.mp hs)).1
      exact roundtrip_record first rest[i] f hf (hwf first (by simp))
        (hwf rest[i] (List.mem_cons_of_mem _ hpmem))
        (hpw rest[i] hpmem)
        (hroom rest[i] (List.mem_cons_of_mem _ hpmem)) hroomf

theorem C4_amended_witness :
    (pcap_time_dilator
      (pcap_time_compressor [pk 0 0, pk 0 10] 2).written 2).written.length
      = 2 := by
  have h := C4_amended [pk 0 0, pk 0 10] 2 (by decide) (by decide)
    (by decide) (by norm_num) (by
      intro p hp
      rcases List.mem_cons.mp hp with rfl | hp'
      · norm_num [instantUs, pk]
      · rcases List.mem_cons.mp hp' with rfl | hp''
        · norm_num [instantUs, pk]
        · cases hp'')
  rw [h.1]
  rfl

/-- C4 is false as stated: compressing two records 10 microseconds apart
by `f = 4` gives offset `round(10/4) = 3`, and stretching by the literal
reciprocal `1/f = 1/4` gives `round(3/4) = 1`; the final timestamp is 9
microseconds away from the original, far beyond one rounding unit (the
composition divides by `f` twice instead of undoing the compression). -/
theorem C4_counterexample :
    SortedStream [pk 0 0, pk 0 10] ∧ WFStream [pk 0 0, pk 0 10] ∧
    (1 : ℚ) < 4 ∧
    (pcap_time_dilator (pcap_time_compressor [pk 0 0, pk 0 10] 4).written
        (1 / 4)).written = [pk 0 0, pk 0 1] ∧
    ¬ (|(instantUs ([pk 0 0, pk 0 1].getD 1 default) : Int) -
        (instantUs ([pk 0 0, pk 0 10].getD 1 default) : Int)| ≤ 1) := by
  have ht : totalMicros (pk 0 0) (pk 0 10) = 10 := by decide
  have hrr : rustRound ((10 : ℚ) / 4) = 3 := by
    unfold rustRound
    rw [if_neg (by norm_num : ¬ ((10 : ℚ) / 4 < 0))]
    norm_num
  have hsc : compressScaled 4 (totalMicros (pk 0 0) (pk 0 10)) = 3 := by
    unfold compressScaled
    rw [ht, show (((10 : Int)) : ℚ) = (10 : ℚ) by norm_num, hrr]
    decide
  have hg : retimePacket (pk 0 0) 3 (pk 0 10) = pk 0 3 := by decide
  have h1 : pcap_time_compressor [pk 0 0, pk 0 10] 4 =
      ⟨true, [pk 0 0, pk 0 3], none⟩ := by
    simp only [pcap_time_compressor,
      if_neg (show ¬ (4 : ℚ) ≤ 1 by norm_num), List.map]
    rw [hsc, hg]
  have ht2 : totalMicros (pk 0 0) (pk 0 3) = 3 := by decide
  have hrr2 : rustRound ((3 : ℚ) * (1 / 4)) = 1 := by
    unfold rustRound
    rw [if_neg (by norm_num : ¬ ((3 : ℚ) * (1 / 4) < 0))]
    norm_num
  have hsc2 : stretchScaled (1 / 4) (totalMicros (pk 0 0) (pk 0 3)) = 1 := by
    unfold stretchScaled
    rw [ht2, show (((3 : Int)) : ℚ) = (3 : ℚ) by norm_num, hrr2]
    decide
  have hg2 : retimePacket (pk 0 0) 1 (pk 0 3) = pk 0 1 := by decide
  have h2 : pcap_time_dilator [pk 0 0, pk 0 3] (1 / 4) =
      ⟨true, [pk 0 0, pk 0 1], none⟩ := by
    simp only [pcap_time_dilator,
      if_neg (show ¬ (1 / 4 : ℚ) ≤ 0 by norm_num), List.map]
    rw [hsc2, hg2]
  refine ⟨by decide, by decide, by norm_num, ?_, by decide⟩
  rw [h1]
  dsimp only
  rw [h2]

/-! ## C5: the comparator on a single deletion -/

/-- When the two fingerprint suffixes from `i` and `j` on agree position
by position (and have equal remaining lengths), the diff loop reports
nothing. -/
theorem alignLoop_sync (h1 h2 : List (List Nat)) :
    ∀ (d i j : Nat), h1.length = i + d → h2.length = j + d →
    (∀ t, t < d → h1.getD (i + t) [] = h2.getD (j + t) []) →
    alignLoop h1 h2 i j = ([], []) := by
  intro d
  induction d with
  | zero =>
      intro i j hi hj _
      rw [alignLoop, dif_neg (by omega)]
      rw [show h1.length - i = 0 by omega, show h2.length - j = 0 by omega]
      rfl
  | succ d ih =>
      intro i j hi hj hsync
      rw [alignLoop, dif_pos (by omega)]
      rw [if_pos (by simpa using hsync 0 (Nat.succ_pos d))]
      exact ih (i + 1) (j + 1) (by omega) (by omega) (fun t ht => by
        have h := hsync (t + 1) (by omega)
        rw [show i + (t + 1) = i + 1 + t by omega,
          show j + (t + 1) = j + 1 + t by omega] at h
        exact h)

/-- Diffing a duplicate-free fingerprint sequence against itself minus the
entry at `p`, with both cursors at `i ≤ p`: the prefix walks in lockstep,
at `p` the loop resynchronizes through the lookahead in the first stream,
and exactly the missing entry `p` is reported. -/
theorem alignLoop_eraseIdx (hs : List (List Nat)) (p : Nat)
    (hnd : hs.Nodup) (hp : p < hs.length) :
    ∀ (i : Nat), i ≤ p → alignLoop hs (hs.eraseIdx p) i i = ([p], []) := by
  have hlen2 : (hs.eraseIdx p).length = hs.length - 1 := by
    rw [List.length_eraseIdx]
    simp [hp]
  have hE1 : ∀ k, k < p → (hs.eraseIdx p).getD k [] = hs.getD k [] := by
    intro k hk
    rw [List.getD_eq_getElem _ _ (by omega : k < (hs.eraseIdx p).length),
      List.getElem_eraseIdx, dif_pos hk,
      List.getD_eq_getElem _ _ (by omega : k < hs.length)]
  have hE2 : ∀ k, p ≤ k → k < hs.length - 1 →
      (hs.eraseIdx p).getD k [] = hs.getD (k + 1) [] := by
    intro k hk1 hk2
    rw [List.getD_eq_getElem _ _ (by omega : k < (hs.eraseIdx p).length),
      List.getElem_eraseIdx, dif_neg (by omega),
      List.getD_eq_getElem _ _ (by omega : k + 1 < hs.length)]
  suffices H : ∀ d i, i ≤ p → p - i = d →
      alignLoop hs (hs.eraseIdx p) i i = ([p], []) from
    fun i hip => H (p - i) i hip rfl
  intro d
  induction d with
  | zero =>
      intro i hip hd
      obtain rfl : p = i := by omega
      by_cases hpl : p + 1 = hs.length
      · rw [alignLoop, dif_neg (by omega)]
        rw [show hs.length - p = 1 by omega, hlen2,
          show hs.length - 1 - p = 0 by omega]
        rfl
      · have hp1 : p + 1 < hs.length := by omega
        have hfind1 : findSync (hs.getD p []) (hs.eraseIdx p) p
            (min (p + 100) (hs.eraseIdx p).length) = none := by
          unfold findSync
          rw [List.find?_eq_none]
          intro k hkmem
          obtain ⟨t, ht, rfl⟩ := List.mem_range'.mp hkmem
          simp only [one_mul] at ht ⊢
          rw [beq_iff_eq]
          rw [hE2 (p + t) (by omega) (by omega)]
          rw [List.getD_eq_getElem _ _ (by omega : p + t + 1 < hs.length),
            List.getD_eq_getElem _ _ hp]
          intro hcon
          have := (hnd.getElem_inj_iff).mp hcon
          omega
        have hfind2 : findSync ((hs.eraseIdx p).getD p []) hs p
            (min (p + 100) hs.length) = some (p + 1) := by
          unfold findSync
          obtain ⟨w, hw⟩ : ∃ w, min (p + 100) hs.length - p = w + 2 :=
            ⟨min (p + 100) hs.length - p - 2, by omega⟩
          rw [hw, List.range'_succ, List.range'_succ]
          rw [List.find?_cons]
          rw [show (hs.getD p [] == (hs.eraseIdx p).getD p []) = false by
            rw [beq_eq_false_iff_ne]
            rw [hE2 p (le_refl p) (by omega)]
            rw [List.getD_eq_getElem _ _ hp,
              List.getD_eq_getElem _ _ (by omega : p + 1 < hs.length)]
            intro hcon
            have := (hnd.getElem_inj_iff).mp hcon
            omega]
          rw [List.find?_cons]
          rw [show (hs.getD (p + 1) [] == (hs.eraseIdx p).getD p []) =
              true by
            rw [beq_iff_eq, hE2 p (le_refl p) (by omega)]]
        rw [alignLoop, dif_pos (by omega)]
        rw [if_neg (by
          rw [hE2 p (le_refl p) (by omega)]
          rw [List.getD_eq_getElem _ _ hp,
            List.getD_eq_getElem _ _ (by omega : p + 1 < hs.length)]
          intro hcon
          have := (hnd.getElem_inj_iff).mp hcon
          omega)]
        dsimp only
        split
        · rename_i k hk
          rw [hfind1] at hk
          cases hk
        · rename_i hk1
          split
          · rename_i k hk2
            rw [hfind2] at hk2
            injection hk2 with hkk
            subst hkk
            have hrest : alignLoop hs (hs.eraseIdx p) (p + 1 + 1) (p + 1) =
                ([], []) := by
              refine alignLoop_sync hs (hs.eraseIdx p) (hs.length - p - 2)
                (p + 1 + 1) (p + 1) (by omega) (by omega) ?_
              intro t ht
              rw [hE2 (p + 1 + t) (by omega) (by omega)]
              rw [show p + 1 + t + 1 = p + 1 + 1 + t by omega]
            rw [hrest]
            rw [show p + 1 - p = 1 by omega, List.range'_one]
            rfl
          · rename_i hk2
            rw [hfind2] at hk2
            cases hk2
  | succ d ih =>
      intro i hip hd
      have hilt : i < p := by omega
      rw [alignLoop, dif_pos (by omega)]
      rw [if_pos (hE1 i hilt).symm]
      exact ih (i + 1) (by omega) (by omega)

/-- Mapping commutes with deleting one position. -/
theorem map_eraseIdx {α β : Type} (f : α → β) (l : List α) :
    ∀ (p : Nat), (l.eraseIdx p).map f = (l.map f).eraseIdx p := by
  induction l with
  | nil => intro p; simp
  | cons a t ih =>
      intro p
      cases p with
      | zero => rfl
      | succ p =>
          simp only [List.eraseIdx, List.map]
          rw [ih p]

/-- C5 amended: for every stream whose records have pairwise distinct
fingerprints, deleting the record at index `p` and comparing against the
original yields exactly one missing entry, `(p, record p)`, and no extra
entries; without distinctness the reported index can differ from `p`. -/
theorem C5_amended (A : List Packet) (p : Nat) (ig : Bool)
    (hp : p < A.length) (hnd : (A.map (readHashBuffer ig)).Nodup) :
    compare_ordered_pcaps A (A.eraseIdx p) ig =
      ([(p, A.getD p default)], []) := by
  unfold compare_ordered_pcaps
  dsimp only
  rw [map_eraseIdx]
  rw [alignLoop_eraseIdx (A.map (readHashBuffer ig)) p hnd
    (by simpa using hp) 0 (by omega)]
  rfl

theorem C5_amended_witness :
    compare_ordered_pcaps [⟨0, 0, 0, 0, [1]⟩, ⟨0, 0, 0, 0, [2]⟩]
      (([⟨0, 0, 0, 0, [1]⟩, ⟨0, 0, 0, 0, [2]⟩] : List Packet).eraseIdx 0)
      false = ([(0, ⟨0, 0, 0, 0, [1]⟩)], []) :=
  C5_amended [⟨0, 0, 0, 0, [1]⟩, ⟨0, 0, 0, 0, [2]⟩] 0 false (by decide)
    (by decide)

/-- C5 is false as stated: on a stream of two identical records, deleting
the record at index 0 yields exactly one missing entry, but the comparator
reports it at index 1 (the cursors match the surviving copy against the
first position), not at the deleted index 0. -/
theorem C5_counterexample :
    (0 : Nat) < ([pk 0 0, pk 0 0] : List Packet).length ∧
    compare_ordered_pcaps [pk 0 0, pk 0 0]
      (([pk 0 0, pk 0 0] : List Packet).eraseIdx 0) false =
      ([(1, pk 0 0)], []) ∧
    (1 : Nat) ≠ 0 := by
  refine ⟨by decide, ?_, by decide⟩
  unfold compare_ordered_pcaps
  dsimp only
  rw [show (([pk 0 0, pk 0 0] : List Packet).map (readHashBuffer false)) =
    [[], []] from rfl]
  rw [show ((([pk 0 0, pk 0 0] : List Packet).eraseIdx 0).map
    (readHashBuffer false)) = [[]] from rfl]
  rw [alignLoop, dif_pos (by simp),
    if_pos (show ([[], []] : List (List Nat)).getD 0 [] =
      ([[]] : List (List Nat)).getD 0 [] from rfl)]
  rw [alignLoop, dif_neg (by simp)]
  rfl
